import Mathlib

/-!
Shallow embedding of `crypto_calc.py`: a 27-symbol text codec together with
ElGamal and RSA block ciphers built on modular exponentiation.

Strings are modelled as `List Char`; fallible Python operations (dictionary
lookup, list indexing, `pow` with zero modulus or a non-invertible base at a
negative exponent) are modelled with `Option`.
-/

namespace CryptoCalc

/-- Sequencing of a fallible step over a list, as a Python `for` loop that can
raise: the first failure aborts the whole call with no partial result. -/
def mapOpt {α β : Type} (f : α → Option β) : List α → Option (List β)
  | [] => some []
  | a :: l => do
    let b ← f a
    let bs ← mapOpt f l
    pure (b :: bs)

/-- Value of a decimal digit character, as `int()` sees it. -/
def charToDigit (c : Char) : Nat := c.toNat - 48

/-- Embedding of Python `int()` on a decimal-digit string. -/
def parseNat (s : List Char) : Nat := s.foldl (fun n c => n * 10 + charToDigit c) 0

/-- Decimal printing helper; the fuel argument bounds the number of digits. -/
def natStrAux : Nat → Nat → List Char
  | _, 0 => []
  | 0, _ => []
  | fuel+1, n+1 => natStrAux fuel ((n+1) / 10) ++ [Nat.digitChar ((n+1) % 10)]

/-- Embedding of Python `str()` on a natural number. -/
def natStr (n : Nat) : List Char := if n = 0 then ['0'] else natStrAux n n

/-- The zero-padding step shared by both ciphers: prepend `'0'` while the
block string is shorter than 6 characters. -/
def pad6 (s : List Char) : List Char :=
  if s.length < 6 then List.replicate (6 - s.length) '0' ++ s else s

/-- Python `%` on naturals; `ZeroDivisionError` on a zero modulus is `none`. -/
def pymod (a n : Nat) : Option Nat := if n = 0 then none else some (a % n)

/-- Python `pow(a, b, n)` with a nonnegative exponent; `ValueError` on a zero
modulus is `none`. -/
def pow3 (a b n : Nat) : Option Nat := if n = 0 then none else some (a ^ b % n)

/-- Extended Euclidean algorithm with explicit fuel (the fuel bounds the first
argument): `egcd fuel a b = (g, x, y)` with `x * a + y * b = g = gcd a b`. -/
def egcd : Nat → Nat → Nat → Nat × Int × Int
  | _, 0, b => (b, 0, 1)
  | 0, a, _ => (a, 1, 0)
  | fuel + 1, a + 1, b =>
    let p := egcd fuel (b % (a + 1)) (a + 1)
    (p.1, p.2.2 - (b / (a + 1) : Nat) * p.2.1, p.2.1)

/-- The modular inverse Python computes for `pow(a, -1, n)`, via the extended
Euclidean algorithm, reduced into `[0, n)`. -/
def invmod (a n : Nat) : Nat := (((egcd a a n).2.1 % (n : Int) + n) % (n : Int)).toNat

/-- Python `pow(a, -k, n)` on naturals: the inverse of `a` is taken and raised
to `k`; `ValueError` (zero modulus, or base not invertible with `k ≠ 0`) is
`none`, and a zero exponent yields `1 % n` without inverting. -/
def powmodNeg (a k n : Nat) : Option Nat :=
  if n = 0 then none
  else if k = 0 then some (1 % n)
  else if Nat.gcd a n = 1 then some (invmod a n ^ k % n) else none

/-- The module-level `ASCII` dictionary: 27 symbols to two-digit codes, in
insertion order. -/
def ASCII : List (Char × List Char) :=
  [('A', ['0','0']), ('B', ['0','1']), ('C', ['0','2']), ('D', ['0','3']),
   ('E', ['0','4']), ('F', ['0','5']), ('G', ['0','6']), ('H', ['0','7']),
   ('I', ['0','8']), ('J', ['0','9']), ('K', ['1','0']), ('L', ['1','1']),
   ('M', ['1','2']), ('N', ['1','3']), ('O', ['1','4']), ('P', ['1','5']),
   ('Q', ['1','6']), ('R', ['1','7']), ('S', ['1','8']), ('T', ['1','9']),
   ('U', ['2','0']), ('V', ['2','1']), ('W', ['2','2']), ('X', ['2','3']),
   ('Y', ['2','4']), ('Z', ['2','5']), (' ', ['2','6'])]

/-- Dictionary lookup `ASCII[c]`; `KeyError` is `none`. -/
def lookupA : Char → List (Char × List Char) → Option (List Char)
  | _, [] => none
  | c, (k, v) :: rest => if c = k then some v else lookupA c rest

/-- `list(ASCII.keys())[list(ASCII.values()).index(v)]`: the first key whose
value is `v`; `ValueError` from `.index` is `none`. -/
def revLookup : List Char → List (Char × List Char) → Option Char
  | _, [] => none
  | v, (k, w) :: rest => if w = v then some k else revLookup v rest

/-- The indexed loop of `convert_to_plaintext`: a space is inserted before the
character at index `i` whenever `i % 3 == 0` and `i ≠ 0`. -/
def ctpAux : Nat → List Char → Option (List Char)
  | _, [] => some []
  | i, c :: cs => do
    let code ← lookupA c ASCII
    let rest ← ctpAux (i + 1) cs
    if i % 3 ≠ 0 ∨ i = 0 then pure (code ++ rest)
    else pure (' ' :: (code ++ rest))

/-- `convert_to_plaintext`: uppercase, then encode each character through
`ASCII`, grouping three characters per space-separated block. -/
def convert_to_plaintext (s : List Char) : Option (List Char) :=
  ctpAux 0 (s.map Char.toUpper)

/-- Python `str.split()` with no argument: the maximal nonspace runs. -/
def pysplitAux : List Char → List Char → List (List Char)
  | [], acc => if acc = [] then [] else [acc.reverse]
  | c :: rest, acc =>
    if c = ' ' then
      (if acc = [] then pysplitAux rest [] else acc.reverse :: pysplitAux rest [])
    else pysplitAux rest (c :: acc)

/-- Python `str.split()` on a character list. -/
def pysplit (l : List Char) : List (List Char) := pysplitAux l []

/-- `result += block + ' '` for every block followed by `result[:-1]`. -/
def joinTrail (bs : List (List Char)) : List Char :=
  (bs.foldl (fun acc b => acc ++ b ++ [' ']) []).dropLast

/-- Canonical single-space-separated join with no trailing separator. -/
def joinSpace : List (List Char) → List Char
  | [] => []
  | b :: bs => b ++ (bs.map (fun x => ' ' :: x)).flatten

/-- `compute_Y`: the ElGamal public value `G ** kprivate % P`. -/
def compute_Y (P G kprivate : Nat) : Option Nat := pymod (G ^ kprivate) P

/-- The loop of `elGamal_encrypt` over the block strings; `i` indexes into the
ephemeral-secret list `K`, and an `IndexError` is `none`. -/
def elgLoop (G Y P : Nat) (K : List Nat) : Nat → List (List Char) → Option (List (Nat × Nat))
  | _, [] => some []
  | i, b :: bs => do
    let k ← K[i]?
    let c1 ← pymod (G ^ k) P
    let c2 ← pymod (parseNat b * Y ^ k) P
    let rest ← elgLoop G Y P K (i + 1) bs
    pure ((c1, c2) :: rest)

/-- `elGamal_encrypt` with public key `(P, G, Y)` and secrets `K`. -/
def elGamal_encrypt (s : List Char) (kpub : Nat × Nat × Nat) (K : List Nat) :
    Option (List (Nat × Nat)) := do
  let pt ← convert_to_plaintext s
  elgLoop kpub.2.1 kpub.2.2 kpub.1 K 0 (pysplit pt)

/-- The per-block body of `elGamal_decrypt`: `pow(C1, -kprivate, P) * C2 % P`. -/
def elgBlockDec (c1 c2 kprivate P : Nat) : Option Nat :=
  (powmodNeg c1 kprivate P).map (fun w => w * c2 % P)

/-- `elGamal_decrypt`: per-block recovery, 6-wide zero-padding, and joining
with a trailing space that is stripped at the end. -/
def elGamal_decrypt (c : List (Nat × Nat)) (kprivate P : Nat) : Option (List Char) := do
  let bs ← mapOpt (fun cb => (elgBlockDec cb.1 cb.2 kprivate P).map (fun v => pad6 (natStr v))) c
  pure (joinTrail bs)

/-- The per-block body of `rsa_encrypt`: `pow(int(m), e, N)`, then optionally
`pow(int(str(_)), r_k[0], N)` when a receiver key is supplied. -/
def rsaBlockEnc (m e N : Nat) (r_k : Option (Nat × Nat)) : Option Nat := do
  let a ← pow3 m e N
  match r_k with
  | none => pure a
  | some rk => pow3 (parseNat (natStr a)) rk.1 N

/-- `rsa_encrypt` with sender public key `(P, Q, E)`, optional sender private
exponent (defaulting to `E`) and optional receiver key pair. -/
def rsa_encrypt (s : List Char) (s_kpub : Nat × Nat × Nat) (s_kpriv : Option Nat)
    (r_k : Option (Nat × Nat)) : Option (List (List Char)) := do
  let pt ← convert_to_plaintext s
  mapOpt (fun b =>
    (rsaBlockEnc (parseNat b) (s_kpriv.getD s_kpub.2.2) (s_kpub.1 * s_kpub.2.1) r_k).map
      (fun a => pad6 (natStr a))) (pysplit pt)

/-- The per-block body of `rsa_decrypt`: `pow(pow(int(c), r_kpriv, N), E, N)`. -/
def rsaBlockDec (c r_kpriv E N : Nat) : Option Nat := do
  let a ← pow3 c r_kpriv N
  pow3 a E N

/-- `rsa_decrypt` with receiver private exponent and sender key `(P, Q, E)`. -/
def rsa_decrypt (c : List (List Char)) (r_kpriv : Nat) (s_k : Nat × Nat × Nat) :
    Option (List Char) := do
  let bs ← mapOpt (fun b =>
    (rsaBlockDec (parseNat b) r_kpriv s_k.2.2 (s_k.1 * s_k.2.1)).map
      (fun v => pad6 (natStr v))) c
  pure (joinTrail bs)

/-- `block[i:i+2] for i in range(0, len(block), 2)`: two-character slices, the
last possibly of length one. -/
def chunk2 : List Char → List (List Char)
  | [] => []
  | [a] => [[a]]
  | a :: b :: rest => [a, b] :: chunk2 rest

/-- `convert_to_original`: split into blocks, slice each into two-character
codes, flatten, and reverse-map every code through `ASCII`. -/
def convert_to_original (plaintext : List Char) : Option (List Char) :=
  mapOpt (fun code => revLookup code ASCII) (((pysplit plaintext).map chunk2).flatten)

/-- Three-character groups of a message, the last possibly shorter; the block
structure `convert_to_plaintext` imposes on its input. -/
def chunks3 : List Char → List (List Char)
  | [] => []
  | a :: b :: c :: rest => [a, b, c] :: chunks3 rest
  | l => [l]

/-- The code string of one chunk of message characters. -/
def codeOf (ch : List Char) : Option (List Char) :=
  (mapOpt (fun c => lookupA c ASCII) ch).map List.flatten

/-- `G` is a primitive root modulo `P`: nonzero mod `P`, and no smaller
positive power than `P - 1` is congruent to `1`. -/
def isPrimitiveRoot (G P : Nat) : Prop :=
  G % P ≠ 0 ∧ ∀ d < P - 1, 0 < d → G ^ d % P ≠ 1

instance (G P : Nat) : Decidable (isPrimitiveRoot G P) := by
  unfold isPrimitiveRoot; infer_instance

/-! ### Decimal strings: parsing, printing, padding -/

/-- Characters `'0'`–`'9'`. -/
def isDigitChar (c : Char) : Prop := 48 ≤ c.toNat ∧ c.toNat ≤ 57

instance (c : Char) : Decidable (isDigitChar c) := by
  unfold isDigitChar; infer_instance

theorem char_eq_of_toNat_eq {a b : Char} (h : a.toNat = b.toNat) : a = b := by
  have h2 := congrArg Char.ofNat h
  rwa [Char.ofNat_toNat, Char.ofNat_toNat] at h2

theorem parseNat_from (s : List Char) : ∀ n : Nat,
    s.foldl (fun n c => n * 10 + charToDigit c) n = n * 10 ^ s.length + parseNat s := by
  induction s with
  | nil => intro n; simp [parseNat]
  | cons c s ih =>
    intro n
    simp only [List.foldl_cons, List.length_cons, parseNat] at ih ⊢
    rw [ih (n * 10 + charToDigit c), ih (0 * 10 + charToDigit c)]
    ring

theorem parseNat_nil : parseNat [] = 0 := rfl

theorem parseNat_cons (c : Char) (s : List Char) :
    parseNat (c :: s) = charToDigit c * 10 ^ s.length + parseNat s := by
  have h := parseNat_from s (charToDigit c)
  simpa [parseNat] using h

theorem parseNat_append (a b : List Char) :
    parseNat (a ++ b) = parseNat a * 10 ^ b.length + parseNat b := by
  simp only [parseNat, List.foldl_append]
  exact parseNat_from b _

theorem charToDigit_lt {c : Char} (h : isDigitChar c) : charToDigit c < 10 := by
  unfold isDigitChar at h; unfold charToDigit; omega

theorem parseNat_lt (s : List Char) (h : ∀ c ∈ s, isDigitChar c) :
    parseNat s < 10 ^ s.length := by
  induction s with
  | nil => simp [parseNat]
  | cons c s ih =>
    have hc : charToDigit c < 10 := charToDigit_lt (h c (by simp))
    have hs := ih (fun x hx => h x (by simp [hx]))
    rw [parseNat_cons, List.length_cons, pow_succ]
    calc charToDigit c * 10 ^ s.length + parseNat s
        < charToDigit c * 10 ^ s.length + 10 ^ s.length := by omega
      _ = (charToDigit c + 1) * 10 ^ s.length := by ring
      _ ≤ 10 * 10 ^ s.length := by
          exact Nat.mul_le_mul_right _ (by omega)
      _ = 10 ^ s.length * 10 := by ring

theorem parseNat_replicate_zero : ∀ k, parseNat (List.replicate k '0') = 0
  | 0 => rfl
  | k + 1 => by
    have h0 : charToDigit '0' = 0 := rfl
    rw [List.replicate_succ, parseNat_cons, parseNat_replicate_zero k, h0]
    simp

theorem charToDigit_digitChar {d : Nat} (h : d < 10) :
    charToDigit (Nat.digitChar d) = d := by
  interval_cases d <;> decide

theorem isDigitChar_digitChar {d : Nat} (h : d < 10) : isDigitChar (Nat.digitChar d) := by
  interval_cases d <;> decide

theorem natStrAux_parse : ∀ (fuel n : Nat), n ≤ fuel → parseNat (natStrAux fuel n) = n
  | _, 0, _ => by simp [natStrAux, parseNat]
  | 0, n + 1, h => absurd h (by omega)
  | fuel + 1, n + 1, h => by
    rw [natStrAux, parseNat_append,
      natStrAux_parse fuel ((n + 1) / 10) (by omega)]
    have hd : charToDigit (Nat.digitChar ((n + 1) % 10)) = (n + 1) % 10 :=
      charToDigit_digitChar (Nat.mod_lt _ (by norm_num))
    simp only [parseNat_cons, List.length_singleton, pow_one, List.length_nil, pow_zero,
      mul_one, parseNat_nil, hd]
    omega

theorem natStrAux_digits : ∀ (fuel n : Nat), ∀ c ∈ natStrAux fuel n, isDigitChar c
  | _, 0 => by simp [natStrAux]
  | 0, _ + 1 => by simp [natStrAux]
  | fuel + 1, n + 1 => by
    intro c hc
    rw [natStrAux] at hc
    rcases List.mem_append.1 hc with h | h
    · exact natStrAux_digits fuel _ c h
    · simp only [List.mem_singleton] at h
      subst h
      exact isDigitChar_digitChar (Nat.mod_lt _ (by norm_num))

theorem natStrAux_length : ∀ (fuel n k : Nat), n < 10 ^ k → (natStrAux fuel n).length ≤ k
  | _, 0, _, _ => by simp [natStrAux]
  | 0, _ + 1, _, _ => by simp [natStrAux]
  | fuel + 1, n + 1, k, h => by
    rw [natStrAux]
    have hk : k ≠ 0 := by
      rintro rfl
      rw [pow_zero] at h
      omega
    obtain ⟨k', rfl⟩ : ∃ k', k = k' + 1 := ⟨k - 1, by omega⟩
    have hdiv : (n + 1) / 10 < 10 ^ k' := by
      rw [Nat.div_lt_iff_lt_mul (by norm_num)]
      calc n + 1 < 10 ^ (k' + 1) := h
        _ = 10 ^ k' * 10 := by rw [pow_succ]
    have hrec := natStrAux_length fuel ((n + 1) / 10) k' hdiv
    simp only [List.length_append, List.length_singleton]
    omega

theorem parseNat_natStr (n : Nat) : parseNat (natStr n) = n := by
  by_cases hn : n = 0
  · subst hn; decide
  · unfold natStr
    rw [if_neg hn]
    exact natStrAux_parse n n le_rfl

theorem natStr_digits (n : Nat) : ∀ c ∈ natStr n, isDigitChar c := by
  unfold natStr
  split
  · intro c hc
    simp only [List.mem_singleton] at hc
    subst hc; decide
  · exact natStrAux_digits n n

theorem natStr_length (n k : Nat) (h : n < 10 ^ k) (hk : 0 < k) : (natStr n).length ≤ k := by
  unfold natStr
  split
  · simpa using hk
  · exact natStrAux_length n n k h

theorem pad6_parse (s : List Char) : parseNat (pad6 s) = parseNat s := by
  unfold pad6
  split
  · rw [parseNat_append, parseNat_replicate_zero]
    simp
  · rfl

theorem pad6_length_eq (s : List Char) (h : s.length ≤ 6) : (pad6 s).length = 6 := by
  unfold pad6
  split
  · simp only [List.length_append, List.length_replicate]
    omega
  · omega

theorem pad6_length_ge (s : List Char) : 6 ≤ (pad6 s).length := by
  unfold pad6
  split
  · simp only [List.length_append, List.length_replicate]
    omega
  · omega

theorem pad6_digits (s : List Char) (h : ∀ c ∈ s, isDigitChar c) :
    ∀ c ∈ pad6 s, isDigitChar c := by
  unfold pad6
  split
  · intro c hc
    rcases List.mem_append.1 hc with h2 | h2
    · rw [List.eq_of_mem_replicate h2]; decide
    · exact h c h2
  · exact h

theorem charToDigit_inj {a b : Char} (ha : isDigitChar a) (hb : isDigitChar b)
    (h : charToDigit a = charToDigit b) : a = b := by
  apply char_eq_of_toNat_eq
  unfold isDigitChar at ha hb
  unfold charToDigit at h
  omega

theorem parseNat_inj : ∀ (s t : List Char), (∀ c ∈ s, isDigitChar c) →
    (∀ c ∈ t, isDigitChar c) → s.length = t.length → parseNat s = parseNat t → s = t
  | [], [], _, _, _, _ => rfl
  | [], _ :: _, _, _, hl, _ => by simp at hl
  | _ :: _, [], _, _, hl, _ => by simp at hl
  | a :: s, b :: t, hs, ht, hl, hp => by
    simp only [List.length_cons, Nat.succ.injEq] at hl
    rw [parseNat_cons, parseNat_cons, hl] at hp
    have hps : parseNat s < 10 ^ t.length := hl ▸ parseNat_lt s (fun c hc => hs c (by simp [hc]))
    have hpt : parseNat t < 10 ^ t.length := parseNat_lt t (fun c hc => ht c (by simp [hc]))
    have hpow : 0 < 10 ^ t.length := pow_pos (by norm_num) _
    have hdiv : ∀ d p : Nat, p < 10 ^ t.length →
        (d * 10 ^ t.length + p) / 10 ^ t.length = d := by
      intro d p hlt
      rw [mul_comm, Nat.mul_add_div hpow, Nat.div_eq_of_lt hlt, add_zero]
    have hd : charToDigit a = charToDigit b := by
      have h1 := hdiv (charToDigit a) (parseNat s) hps
      have h2 := hdiv (charToDigit b) (parseNat t) hpt
      rw [hp] at h1
      rw [h1] at h2
      omega
    have hrest : parseNat s = parseNat t := by
      rw [hd] at hp
      omega
    have hab : a = b := charToDigit_inj (hs a (by simp)) (ht b (by simp)) hd
    rw [hab, parseNat_inj s t (fun c hc => hs c (by simp [hc]))
      (fun c hc => ht c (by simp [hc])) hl hrest]

/-- The canonical 6-wide block print: padding the printed value of a parsed
6-digit string returns the string itself. -/
theorem pad6_natStr_parseNat (b : List Char) (hb : ∀ c ∈ b, isDigitChar c)
    (hl : b.length = 6) : pad6 (natStr (parseNat b)) = b := by
  have hlt : parseNat b < 10 ^ 6 := hl ▸ parseNat_lt b hb
  have hns : (natStr (parseNat b)).length ≤ 6 := natStr_length _ 6 hlt (by norm_num)
  apply parseNat_inj
  · exact pad6_digits _ (natStr_digits _)
  · exact hb
  · rw [pad6_length_eq _ hns, hl]
  · rw [pad6_parse, parseNat_natStr]

/-! ### Modular inverse and exponent arithmetic -/

theorem egcd_spec : ∀ (fuel a b : Nat), a ≤ fuel →
    (egcd fuel a b).1 = Nat.gcd a b ∧
    (egcd fuel a b).2.1 * a + (egcd fuel a b).2.2 * b = (Nat.gcd a b : Int)
  | fuel, 0, b, _ => by
    rw [egcd]
    refine ⟨by simp, by rw [Nat.gcd_zero_left]; push_cast; ring⟩
  | 0, _ + 1, _, h => absurd h (by omega)
  | fuel + 1, a + 1, b, h => by
    have hmod : b % (a + 1) < a + 1 := Nat.mod_lt b (by omega)
    obtain ⟨h1, h2⟩ := egcd_spec fuel (b % (a + 1)) (a + 1) (by omega)
    have hg : Nat.gcd (a + 1) b = Nat.gcd (b % (a + 1)) (a + 1) := Nat.gcd_rec _ _
    have hcast : ((b % (a + 1) : Nat) : Int) =
        (b : Int) - ((a + 1 : Nat) : Int) * ((b / (a + 1) : Nat) : Int) := by
      have hdm := congrArg (Nat.cast : Nat → Int) (Nat.mod_add_div b (a + 1))
      push_cast at hdm ⊢
      linarith
    rw [egcd]
    refine ⟨by rw [hg, ← h1], ?_⟩
    rw [hg, ← h2, hcast]
    push_cast
    ring

theorem invmod_lt (a : Nat) {n : Nat} (hn : 0 < n) : invmod a n < n := by
  unfold invmod
  have hn0 : (n : Int) ≠ 0 := by exact_mod_cast hn.ne.symm
  have h1 : 0 ≤ ((egcd a a n).2.1 % (n : Int) + n) % (n : Int) := Int.emod_nonneg _ hn0
  have h2 : ((egcd a a n).2.1 % (n : Int) + n) % (n : Int) < n :=
    Int.emod_lt_of_pos _ (by exact_mod_cast hn)
  omega

theorem invmod_mul {a n : Nat} (hn : 0 < n) (h : Nat.gcd a n = 1) :
    a * invmod a n % n = 1 % n := by
  obtain ⟨-, hxy⟩ := egcd_spec a a n le_rfl
  rw [h] at hxy
  push_cast at hxy
  set x := (egcd a a n).2.1 with hx
  set y := (egcd a a n).2.2 with hy
  have hn0 : (n : Int) ≠ 0 := by
    have := hn
    omega
  have hj0 : 0 ≤ (x % (n : Int) + n) % (n : Int) := Int.emod_nonneg _ hn0
  have hjmod : ((x % (n : Int) + n) % (n : Int)) % (n : Int) = x % (n : Int) := by
    have hs : ∀ z : Int, z % (n : Int) % (n : Int) = z % (n : Int) := fun z =>
      Int.emod_emod_of_dvd z dvd_rfl
    rw [show (x % (n : Int) + n) = (x % (n : Int) + (n : Int) * 1) by ring,
      Int.add_mul_emod_self_left, hs, hs]
  have hj : ((invmod a n : Nat) : Int) = (x % (n : Int) + n) % (n : Int) := by
    unfold invmod
    rw [← hx, Int.toNat_of_nonneg hj0]
  have hmx : ((a : Int) * invmod a n) % n = ((a : Int) * x) % n := by
    calc ((a : Int) * invmod a n) % n
        = ((a : Int) % n * (((invmod a n : Nat) : Int) % n)) % n := by
          rw [Int.mul_emod]
      _ = ((a : Int) % n * (x % n)) % n := by rw [hj, hjmod]
      _ = ((a : Int) * x) % n := by rw [← Int.mul_emod]
  have hax : ((a : Int) * x) % n = 1 % n := by
    have hval : (a : Int) * x = 1 - y * n := by linarith [hxy]
    rw [hval, show (1 : Int) - y * n = 1 + n * (-y) by ring, Int.add_mul_emod_self_left]
  have hfin : ((a : Int) * invmod a n) % n = 1 % n := hmx.trans hax
  have hcast : ((a * invmod a n % n : Nat) : Int) = ((1 % n : Nat) : Int) := by
    push_cast
    exact hfin
  exact_mod_cast hcast

theorem inv_unique {n a x y : Nat} (hx : a * x % n = 1 % n) (hy : a * y % n = 1 % n)
    (hxn : x < n) (hyn : y < n) : x = y := by
  have h1 : Nat.ModEq n (a * x) 1 := hx
  have h2 : Nat.ModEq n (a * y) 1 := hy
  have hxy : Nat.ModEq n x y := by
    calc x = x * 1 := (mul_one x).symm
      _ ≡ x * (a * y) [MOD n] := h2.symm.mul_left x
      _ = (a * x) * y := by ring
      _ ≡ 1 * y [MOD n] := h1.mul_right y
      _ = y := one_mul y
  exact hxy.eq_of_lt_of_lt hxn hyn

theorem gcd_pow_mod_one {a P : Nat} (k : Nat) (ha : Nat.gcd a P = 1) :
    Nat.gcd (a ^ k % P) P = 1 := by
  rw [← Nat.gcd_rec, Nat.gcd_comm]
  exact Nat.Coprime.pow_left _ ha

theorem powmodNeg_eq (a k P : Nat) (hP : 1 < P) (ha : Nat.gcd a P = 1) :
    powmodNeg a k P = some (invmod (a ^ k % P) P) := by
  have hP0 : 0 < P := by omega
  unfold powmodNeg
  rw [if_neg (by omega)]
  by_cases hk : k = 0
  · subst hk
    rw [if_pos rfl]
    congr 1
    have h1 : a ^ 0 % P = 1 := by
      rw [pow_zero, Nat.mod_eq_of_lt hP]
    rw [h1]
    have hiv : 1 * invmod 1 P % P = 1 % P := invmod_mul hP0 (Nat.gcd_one_left P)
    have hone : 1 * (1 % P) % P = 1 % P := by
      rw [one_mul, Nat.mod_mod_of_dvd _ dvd_rfl]
    exact inv_unique hone hiv (Nat.mod_lt _ hP0) (invmod_lt _ hP0)
  · rw [if_neg hk, if_pos ha]
    congr 1
    have hbase : Nat.ModEq P (a * invmod a P) 1 := invmod_mul hP0 ha
    have hpow : Nat.ModEq P ((a * invmod a P) ^ k) 1 := by
      simpa using hbase.pow k
    have hme : Nat.ModEq P ((a ^ k % P) * (invmod a P ^ k % P)) 1 := by
      calc (a ^ k % P) * (invmod a P ^ k % P)
          ≡ a ^ k * invmod a P ^ k [MOD P] :=
            Nat.ModEq.mul (Nat.mod_modEq _ _) (Nat.mod_modEq _ _)
        _ = (a * invmod a P) ^ k := (mul_pow _ _ _).symm
        _ ≡ 1 [MOD P] := hpow
    exact inv_unique hme (invmod_mul hP0 (gcd_pow_mod_one k ha))
      (Nat.mod_lt _ hP0) (invmod_lt _ hP0)

theorem rsa_pow_eq {P Q e : Nat} (hP : Nat.Prime P) (hQ : Nat.Prime Q) (hne : P ≠ Q)
    (he : e % ((P - 1) * (Q - 1)) = 1 % ((P - 1) * (Q - 1))) (v : Nat) :
    Nat.ModEq (P * Q) (v ^ e) v := by
  have h2P := hP.two_le
  have h2Q := hQ.two_le
  have hphi : 2 ≤ (P - 1) * (Q - 1) := by
    rcases Nat.lt_or_ge (P - 1) 2 with h | h
    · have hq2 : 2 ≤ Q - 1 := by omega
      calc 2 = 1 * 2 := by norm_num
        _ ≤ (P - 1) * (Q - 1) := Nat.mul_le_mul (by omega) hq2
    · calc 2 = 2 * 1 := by norm_num
        _ ≤ (P - 1) * (Q - 1) := Nat.mul_le_mul h (by omega)
  have he1 : e % ((P - 1) * (Q - 1)) = 1 := by
    rw [he, Nat.mod_eq_of_lt hphi]
  obtain ⟨t, ht⟩ : ∃ t, e = (P - 1) * (Q - 1) * t + 1 :=
    ⟨e / ((P - 1) * (Q - 1)), by
      conv_lhs => rw [← Nat.div_add_mod e ((P - 1) * (Q - 1))]
      rw [he1]⟩
  have hprime : ∀ (p s m : Nat), Nat.Prime p → Nat.ModEq p (m ^ ((p - 1) * s + 1)) m := by
    intro p s m hp
    by_cases hdvd : p ∣ m
    · have h0 : Nat.ModEq p m 0 := (Nat.modEq_zero_iff_dvd).2 hdvd
      calc m ^ ((p - 1) * s + 1) ≡ 0 ^ ((p - 1) * s + 1) [MOD p] := h0.pow _
        _ = 0 := zero_pow (by omega)
        _ ≡ m [MOD p] := h0.symm
    · have hco : Nat.Coprime m p := ((Nat.Prime.coprime_iff_not_dvd hp).2 hdvd).symm
      have hfer : Nat.ModEq p (m ^ (p - 1)) 1 := by
        have htot := Nat.ModEq.pow_totient hco
        rwa [Nat.totient_prime hp] at htot
      calc m ^ ((p - 1) * s + 1) = (m ^ (p - 1)) ^ s * m := by
            rw [pow_succ, pow_mul]
        _ ≡ 1 ^ s * m [MOD p] := (hfer.pow s).mul_right m
        _ = m := by rw [one_pow, one_mul]
  have hp1 : Nat.ModEq P (v ^ e) v := by
    have hh := hprime P ((Q - 1) * t) v hP
    rwa [show (P - 1) * ((Q - 1) * t) + 1 = (P - 1) * (Q - 1) * t + 1 by ring, ← ht] at hh
  have hq1 : Nat.ModEq Q (v ^ e) v := by
    have hh := hprime Q ((P - 1) * t) v hQ
    rwa [show (Q - 1) * ((P - 1) * t) + 1 = (P - 1) * (Q - 1) * t + 1 by ring, ← ht] at hh
  exact (Nat.modEq_and_modEq_iff_modEq_mul ((Nat.coprime_primes hP hQ).2 hne)).1 ⟨hp1, hq1⟩

/-! ### List infrastructure: mapOpt, joins, splitting, chunking -/

theorem mapOpt_some_of {α β : Type} (f : α → Option β) (g : α → β) :
    ∀ l : List α, (∀ x ∈ l, f x = some (g x)) → mapOpt f l = some (l.map g)
  | [], _ => rfl
  | a :: l, h => by
    have ha := h a (by simp)
    have hl := mapOpt_some_of f g l (fun x hx => h x (by simp [hx]))
    simp [mapOpt, ha, hl]

theorem mapOpt_mem {α β : Type} (f : α → Option β) :
    ∀ (l : List α) (ys : List β), mapOpt f l = some ys → ∀ y ∈ ys, ∃ x ∈ l, f x = some y
  | [], ys, h => by
    simp only [mapOpt] at h
    injection h with h
    subst h
    simp
  | a :: l, ys, h => by
    rcases hfa : f a with _ | b
    · simp [mapOpt, hfa] at h
    · rcases hml : mapOpt f l with _ | bs
      · simp [mapOpt, hfa, hml] at h
      · simp only [mapOpt, hfa, hml, Option.bind_some] at h
        injection h with h
        subst h
        intro y hy
        rcases List.mem_cons.1 hy with rfl | hy
        · exact ⟨a, by simp, hfa⟩
        · obtain ⟨x, hx, hfx⟩ := mapOpt_mem f l bs hml y hy
          exact ⟨x, by simp [hx], hfx⟩

theorem mapOpt_isSome {α β : Type} (f : α → Option β) :
    ∀ l : List α, (mapOpt f l).isSome = true ↔ ∀ x ∈ l, (f x).isSome = true
  | [] => by simp [mapOpt]
  | a :: l => by
    rcases hfa : f a with _ | b
    · simp [mapOpt, hfa]
    · rcases hml : mapOpt f l with _ | bs
      · constructor
        · intro hcontra
          simp [mapOpt, hfa, hml] at hcontra
        · intro hall
          have hl : (mapOpt f l).isSome = true :=
            (mapOpt_isSome f l).2 (fun x hx => hall x (by simp [hx]))
          rw [hml] at hl
          simp at hl
      · have hiff := mapOpt_isSome f l
        simp [mapOpt, hfa, hml] at hiff ⊢
        exact hiff

theorem foldl_append_acc (bs : List (List Char)) : ∀ acc : List Char,
    bs.foldl (fun acc b => acc ++ b ++ [' ']) acc
      = acc ++ (bs.map (fun b => b ++ [' '])).flatten := by
  induction bs with
  | nil => intro acc; simp
  | cons b bs ih =>
    intro acc
    rw [List.foldl_cons, ih, List.map_cons, List.flatten_cons]
    simp [List.append_assoc]

theorem dropLast_graft : ∀ (bs : List (List Char)) (b : List Char),
    ((b ++ [' ']) ++ (bs.map (fun x => x ++ [' '])).flatten).dropLast
      = b ++ (bs.map (fun x => ' ' :: x)).flatten
  | [], b => by simp
  | c :: cs, b => by
    have hne : ((c ++ [' ']) ++ (cs.map (fun x => x ++ [' '])).flatten) ≠ [] := by
      simp
    rw [List.map_cons, List.flatten_cons, List.dropLast_append_of_ne_nil _ hne,
      dropLast_graft cs c]
    simp [List.append_assoc]

theorem joinTrail_eq_joinSpace : ∀ bs, joinTrail bs = joinSpace bs
  | [] => rfl
  | b :: bs => by
    unfold joinTrail
    rw [foldl_append_acc, List.nil_append, List.map_cons, List.flatten_cons,
      dropLast_graft bs b]
    rfl

theorem pysplitAux_nospace : ∀ (w rest acc : List Char), (∀ c ∈ w, c ≠ ' ') →
    pysplitAux (w ++ rest) acc = pysplitAux rest (w.reverse ++ acc)
  | [], rest, acc, _ => by simp
  | c :: w, rest, acc, h => by
    have hc : c ≠ ' ' := h c (by simp)
    rw [List.cons_append, pysplitAux, if_neg hc,
      pysplitAux_nospace w rest (c :: acc) (fun x hx => h x (by simp [hx]))]
    simp

theorem joinSpace_cons_cons (b c : List Char) (cs : List (List Char)) :
    joinSpace (b :: c :: cs) = b ++ ' ' :: joinSpace (c :: cs) := by
  simp [joinSpace]

theorem pysplit_joinSpace : ∀ bs : List (List Char),
    (∀ b ∈ bs, b ≠ [] ∧ ∀ c ∈ b, c ≠ ' ') → pysplit (joinSpace bs) = bs
  | [], _ => rfl
  | [b], h => by
    obtain ⟨hne, hns⟩ := h b (by simp)
    unfold pysplit
    have hb : joinSpace [b] = b := by simp [joinSpace]
    rw [hb, show b = b ++ [] by simp, pysplitAux_nospace b [] [] hns]
    rw [pysplitAux]
    rw [if_neg (by simp [hne])]
    simp
  | b :: c :: cs, h => by
    obtain ⟨hne, hns⟩ := h b (by simp)
    unfold pysplit
    rw [joinSpace_cons_cons, show b ++ ' ' :: joinSpace (c :: cs)
        = b ++ (' ' :: joinSpace (c :: cs)) from rfl,
      pysplitAux_nospace b _ [] hns, pysplitAux, if_pos rfl]
    rw [if_neg (by simp [hne])]
    have hrec := pysplit_joinSpace (c :: cs) (fun x hx => h x (by simp [hx]))
    unfold pysplit at hrec
    rw [hrec]
    simp

theorem chunks3_flatten : ∀ l : List Char, (chunks3 l).flatten = l
  | [] => rfl
  | [_] => rfl
  | [_, _] => rfl
  | a :: b :: c :: rest => by
    rw [chunks3]
    simp [chunks3_flatten rest]

theorem chunks3_three : ∀ l : List Char, l.length % 3 = 0 → ∀ ch ∈ chunks3 l, ch.length = 3
  | [], _ => by simp [chunks3]
  | [_], h => by simp at h
  | [_, _], h => by simp at h
  | a :: b :: c :: rest, h => by
    intro ch hch
    rw [chunks3] at hch
    rcases List.mem_cons.1 hch with rfl | hch
    · rfl
    · refine chunks3_three rest ?_ ch hch
      simp only [List.length_cons] at h
      omega

theorem chunks3_size : ∀ l : List Char, ∀ ch ∈ chunks3 l, 0 < ch.length ∧ ch.length ≤ 3
  | [] => by simp [chunks3]
  | [_] => by simp [chunks3]
  | [_, _] => by simp [chunks3]
  | a :: b :: c :: rest => by
    intro ch hch
    rw [chunks3] at hch
    rcases List.mem_cons.1 hch with rfl | hch
    · simp
    · exact chunks3_size rest ch hch

/-- Structure of the `convert_to_plaintext` loop: starting at an index that is
a multiple of three, the output is the per-chunk code strings, space-joined
(with a leading space on every chunk when the start index is positive). -/
theorem ctpAux_chunks : ∀ (l : List Char) (i : Nat), i % 3 = 0 →
    ctpAux i l = (mapOpt codeOf (chunks3 l)).map
      (fun bs => if i = 0 then joinSpace bs else (bs.map (fun b => ' ' :: b)).flatten)
  | [], i, _ => by
    simp [ctpAux, chunks3, mapOpt, joinSpace]
  | [a], i, h => by
    rcases hva : lookupA a ASCII with _ | va
    · simp [ctpAux, chunks3, mapOpt, codeOf, hva]
    · by_cases hi : i = 0 <;>
        simp [ctpAux, chunks3, mapOpt, codeOf, hva, joinSpace, hi, h]
  | [a, b], i, h => by
    have h1 : ¬((i + 1) % 3 = 0) := by omega
    rcases hva : lookupA a ASCII with _ | va
    · simp [ctpAux, chunks3, mapOpt, codeOf, hva]
    · rcases hvb : lookupA b ASCII with _ | vb
      · simp [ctpAux, chunks3, mapOpt, codeOf, hva, hvb]
      · by_cases hi : i = 0 <;>
          simp [ctpAux, chunks3, mapOpt, codeOf, hva, hvb, joinSpace, hi, h, h1]
  | a :: b :: c :: rest, i, h => by
    have h1 : ¬((i + 1) % 3 = 0) := by omega
    have h2 : ¬((i + 1 + 1) % 3 = 0) := by omega
    have h3 : (i + 1 + 1 + 1) % 3 = 0 := by omega
    have h30 : ¬(i + 1 + 1 + 1 = 0) := by omega
    have ih := ctpAux_chunks rest (i + 1 + 1 + 1) h3
    rcases hva : lookupA a ASCII with _ | va
    · simp [ctpAux, chunks3, mapOpt, codeOf, hva]
    · rcases hvb : lookupA b ASCII with _ | vb
      · simp [ctpAux, chunks3, mapOpt, codeOf, hva, hvb]
      · rcases hvc : lookupA c ASCII with _ | vc
        · simp [ctpAux, chunks3, mapOpt, codeOf, hva, hvb, hvc]
        · rcases hrest : mapOpt codeOf (chunks3 rest) with _ | bs
          · simp [ctpAux, chunks3, mapOpt, codeOf, hva, hvb, hvc, ih, hrest]
          · by_cases hi : i = 0
            · subst hi
              rw [hrest] at ih
              norm_num at ih
              simp [ctpAux, chunks3, mapOpt, codeOf, hva, hvb, hvc, ih, hrest,
                joinSpace, List.append_assoc]
            · rw [hrest] at ih
              simp only [Option.map_some', if_neg h30] at ih
              simp [ctpAux, chunks3, mapOpt, codeOf, hva, hvb, hvc, ih, hrest, h, h1, h2, hi,
                joinSpace, List.append_assoc]

/-! ### Facts about the ASCII table and the codec -/

theorem ASCII_values : ∀ p ∈ ASCII, p.2.length = 2 ∧ ∀ c ∈ p.2, isDigitChar c ∧ c ≠ ' ' := by
  decide

theorem ASCII_rev : ∀ p ∈ ASCII, revLookup p.2 ASCII = some p.1 := by
  decide

theorem lookupA_mem (c : Char) (v : List Char) :
    ∀ T : List (Char × List Char), lookupA c T = some v → (c, v) ∈ T
  | [], h => by simp [lookupA] at h
  | (k, w) :: T, h => by
    rw [lookupA] at h
    by_cases hc : c = k
    · rw [if_pos hc] at h
      injection h with h
      subst h
      subst hc
      exact List.mem_cons_self _ _
    · rw [if_neg hc] at h
      exact List.mem_cons_of_mem _ (lookupA_mem c v T h)

theorem lookupA_ASCII_len {c : Char} {v : List Char} (h : lookupA c ASCII = some v) :
    v.length = 2 ∧ ∀ x ∈ v, isDigitChar x ∧ x ≠ ' ' :=
  ASCII_values (c, v) (lookupA_mem c v ASCII h)

theorem revLookup_lookupA {c : Char} {v : List Char} (h : lookupA c ASCII = some v) :
    revLookup v ASCII = some c :=
  ASCII_rev (c, v) (lookupA_mem c v ASCII h)

theorem isSome_map {α β : Type} (f : α → β) (o : Option α) :
    (Option.map f o).isSome = o.isSome := by
  cases o <;> rfl

theorem mapOpt_length {α β : Type} (f : α → Option β) :
    ∀ (l : List α) (ys : List β), mapOpt f l = some ys → ys.length = l.length
  | [], ys, h => by
    simp only [mapOpt] at h
    injection h with h
    subst h
    rfl
  | a :: l, ys, h => by
    rcases hfa : f a with _ | b
    · simp [mapOpt, hfa] at h
    · rcases hml : mapOpt f l with _ | bs
      · simp [mapOpt, hfa, hml] at h
      · simp only [mapOpt, hfa, hml, Option.bind_some] at h
        injection h with h
        subst h
        simp [mapOpt_length f l bs hml]

theorem codeOf_some : ∀ (ch v : List Char), codeOf ch = some v →
    v.length = 2 * ch.length ∧ ∀ x ∈ v, isDigitChar x ∧ x ≠ ' '
  | [], v, h => by
    simp only [codeOf, mapOpt, Option.map_some'] at h
    injection h with h
    subst h
    simp
  | c :: ch, v, h => by
    rcases hva : lookupA c ASCII with _ | w
    · simp [codeOf, mapOpt, hva] at h
    · rcases hm : mapOpt (fun c => lookupA c ASCII) ch with _ | ws
      · simp [codeOf, mapOpt, hva, hm] at h
      · have hrec := codeOf_some ch ws.flatten (by simp [codeOf, hm])
        obtain ⟨hw2, hwd⟩ := lookupA_ASCII_len hva
        have hv : v = w ++ ws.flatten := by
          simp only [codeOf, mapOpt, hva, hm, Option.bind_eq_bind, Option.some_bind,
            Option.pure_def, Option.map_some', List.flatten_cons] at h
          injection h with h
          exact h.symm
        subst hv
        constructor
        · simp only [List.length_append, List.length_cons, hw2, hrec.1]
          omega
        · intro x hx
          rcases List.mem_append.1 hx with hx | hx
          · exact hwd x hx
          · exact hrec.2 x hx

theorem convert_to_plaintext_eq (m : List Char) :
    convert_to_plaintext m =
      (mapOpt codeOf (chunks3 (m.map Char.toUpper))).map joinSpace := by
  unfold convert_to_plaintext
  rw [ctpAux_chunks _ 0 rfl]
  simp

/-- Full characterization of a successful encode: the plaintext is the
space-join of the per-chunk code strings, and splitting recovers them. -/
theorem ctp_blocks {m pt : List Char} (h : convert_to_plaintext m = some pt) :
    ∃ bs, mapOpt codeOf (chunks3 (m.map Char.toUpper)) = some bs ∧ pt = joinSpace bs ∧
      pysplit pt = bs ∧
      ∀ b ∈ bs, ∃ ch ∈ chunks3 (m.map Char.toUpper), codeOf ch = some b := by
  rw [convert_to_plaintext_eq] at h
  rcases hmo : mapOpt codeOf (chunks3 (m.map Char.toUpper)) with _ | bs
  · rw [hmo] at h
    simp at h
  · rw [hmo] at h
    simp only [Option.map_some'] at h
    injection h with h
    have hmem : ∀ b ∈ bs, ∃ ch ∈ chunks3 (m.map Char.toUpper), codeOf ch = some b := by
      intro b hb
      obtain ⟨ch, hch, hcode⟩ := mapOpt_mem codeOf _ bs hmo b hb
      exact ⟨ch, hch, hcode⟩
    have hsplit : pysplit (joinSpace bs) = bs := by
      apply pysplit_joinSpace
      intro b hb
      obtain ⟨ch, hch, hcode⟩ := hmem b hb
      obtain ⟨hlen, hall⟩ := codeOf_some ch b hcode
      obtain ⟨hpos, -⟩ := chunks3_size _ ch hch
      constructor
      · intro hnil
        subst hnil
        simp only [List.length_nil] at hlen
        omega
      · exact fun c hc => (hall c hc).2
    exact ⟨bs, rfl, h.symm, h ▸ hsplit, hmem⟩

theorem ctp_isSome_iff (m : List Char) :
    (convert_to_plaintext m).isSome = true ↔
      ∀ c ∈ m, (lookupA (Char.toUpper c) ASCII).isSome = true := by
  rw [convert_to_plaintext_eq, isSome_map, mapOpt_isSome]
  constructor
  · intro hall c hc
    have hu : Char.toUpper c ∈ m.map Char.toUpper := List.mem_map_of_mem _ hc
    rw [← chunks3_flatten (m.map Char.toUpper)] at hu
    obtain ⟨ch, hch, hcch⟩ := List.mem_flatten.1 hu
    have hcs := hall ch hch
    rw [codeOf, isSome_map, mapOpt_isSome] at hcs
    exact hcs _ hcch
  · intro hall ch hch
    rw [codeOf, isSome_map, mapOpt_isSome]
    intro x hx
    have hxu : x ∈ m.map Char.toUpper := by
      rw [← chunks3_flatten (m.map Char.toUpper)]
      exact List.mem_flatten.2 ⟨ch, hch, hx⟩
    obtain ⟨c, hc, rfl⟩ := List.mem_map.1 hxu
    exact hall c hc

/-! ### Cipher-level helper lemmas -/

theorem elg_block_dec_core {P : Nat} (hP : Nat.Prime P) {G : Nat} (hg : Nat.gcd G P = 1)
    (kpriv k v : Nat) (hv : v < P) :
    elgBlockDec (G ^ k % P) (v * (G ^ kpriv % P) ^ k % P) kpriv P = some v := by
  have hP1 : 1 < P := hP.one_lt
  have hP0 : 0 < P := by omega
  have hc1 : Nat.gcd (G ^ k % P) P = 1 := gcd_pow_mod_one k hg
  unfold elgBlockDec
  rw [powmodNeg_eq _ _ _ hP1 hc1]
  simp only [Option.map_some']
  congr 1
  have hg2 : Nat.ModEq P ((G ^ kpriv % P) ^ k) (G ^ (kpriv * k)) := by
    have hh := (Nat.mod_modEq (G ^ kpriv) P).pow k
    rwa [← pow_mul] at hh
  have hA : Nat.ModEq P ((G ^ k % P) ^ kpriv % P) (G ^ (kpriv * k)) := by
    have h1 := (Nat.mod_modEq (G ^ k) P).pow kpriv
    have h2 := Nat.mod_modEq ((G ^ k % P) ^ kpriv) P
    have h3 := h2.trans h1
    rwa [← pow_mul, mul_comm k kpriv] at h3
  have hw : Nat.ModEq P (((G ^ k % P) ^ kpriv % P) * invmod ((G ^ k % P) ^ kpriv % P) P) 1 :=
    invmod_mul hP0 (gcd_pow_mod_one kpriv hc1)
  set w := invmod ((G ^ k % P) ^ kpriv % P) P with hwdef
  have hchain : Nat.ModEq P (w * (v * (G ^ kpriv % P) ^ k % P)) v := by
    calc w * (v * (G ^ kpriv % P) ^ k % P)
        ≡ w * (v * (G ^ kpriv % P) ^ k) [MOD P] := (Nat.mod_modEq _ P).mul_left w
      _ ≡ w * (v * G ^ (kpriv * k)) [MOD P] := (hg2.mul_left v).mul_left w
      _ = v * (G ^ (kpriv * k) * w) := by ring
      _ ≡ v * (((G ^ k % P) ^ kpriv % P) * w) [MOD P] := (hA.symm.mul_right w).mul_left v
      _ ≡ v * 1 [MOD P] := hw.mul_left v
      _ = v := mul_one v
  have hfin : Nat.ModEq P (w * (v * (G ^ kpriv % P) ^ k % P) % P) v :=
    (Nat.mod_modEq _ P).trans hchain
  exact hfin.eq_of_lt_of_lt (Nat.mod_lt _ hP0) hv

theorem elgLoop_eq (G Y P : Nat) (K : List Nat) (hP : 0 < P) :
    ∀ (bs : List (List Char)) (i : Nat), i + bs.length ≤ K.length →
      elgLoop G Y P K i bs = some ((bs.zip (K.drop i)).map
        (fun p => (G ^ p.2 % P, parseNat p.1 * Y ^ p.2 % P)))
  | [], i, _ => by simp [elgLoop]
  | b :: bs, i, h => by
    have hi : i < K.length := by
      simp only [List.length_cons] at h
      omega
    have hget : K[i]? = some K[i] := List.getElem?_eq_getElem hi
    have hdrop : K.drop i = K[i] :: K.drop (i + 1) := List.drop_eq_getElem_cons hi
    have hrec := elgLoop_eq G Y P K hP bs (i + 1) (by
      simp only [List.length_cons] at h
      omega)
    have hP0 : P ≠ 0 := by omega
    simp only [elgLoop, hget, pymod, if_neg hP0, hrec, Option.bind_eq_bind, Option.some_bind,
      Option.pure_def]
    rw [hdrop, List.zip_cons_cons, List.map_cons]

theorem elgLoop_none (G Y P : Nat) (K : List Nat) :
    ∀ (bs : List (List Char)) (i : Nat), bs ≠ [] → K.length < i + bs.length →
      elgLoop G Y P K i bs = none
  | [], _, hne, _ => absurd rfl hne
  | b :: bs, i, _, h => by
    rcases Nat.lt_or_ge i K.length with hi | hi
    · have hbs : bs ≠ [] := by
        rintro rfl
        simp only [List.length_cons, List.length_nil] at h
        omega
      have hrec := elgLoop_none G Y P K bs (i + 1) hbs (by
        simp only [List.length_cons] at h
        omega)
      have hget : K[i]? = some K[i] := List.getElem?_eq_getElem hi
      by_cases hP : P = 0
      · simp [elgLoop, hget, pymod, hP]
      · simp [elgLoop, hget, pymod, hP, hrec]
    · have hget : K[i]? = none := List.getElem?_eq_none hi
      simp [elgLoop, hget]

theorem pow_mod_chain (v a b N : Nat) : (v ^ a % N) ^ b % N = v ^ (a * b) % N := by
  rw [← Nat.pow_mod, ← pow_mul]

theorem rsaBlockEnc_none_eq {N : Nat} (hN0 : N ≠ 0) (m e : Nat) :
    rsaBlockEnc m e N none = some (m ^ e % N) := by
  simp [rsaBlockEnc, pow3, hN0]

theorem rsaBlockEnc_some_eq {N : Nat} (hN0 : N ≠ 0) (m e er w : Nat) :
    rsaBlockEnc m e N (some (er, w)) = some ((m ^ e % N) ^ er % N) := by
  simp [rsaBlockEnc, pow3, hN0, parseNat_natStr]

theorem rsaBlockDec_eq {N : Nat} (hN0 : N ≠ 0) (c r E : Nat) :
    rsaBlockDec c r E N = some ((c ^ r % N) ^ E % N) := by
  simp [rsaBlockDec, pow3, hN0]

theorem rsaBlockEnc_lt {N m e : Nat} {rk : Option (Nat × Nat)} {a : Nat}
    (h : rsaBlockEnc m e N rk = some a) : a < N := by
  have hN0 : N ≠ 0 := by
    rintro rfl
    simp [rsaBlockEnc, pow3] at h
  have hN : 0 < N := by omega
  rcases rk with _ | ⟨er, w⟩
  · rw [rsaBlockEnc_none_eq hN0] at h
    injection h with h
    subst h
    exact Nat.mod_lt _ hN
  · rw [rsaBlockEnc_some_eq hN0] at h
    injection h with h
    subst h
    exact Nat.mod_lt _ hN

theorem rsaBlockDec_lt {N c r E a : Nat} (h : rsaBlockDec c r E N = some a) : a < N := by
  have hN0 : N ≠ 0 := by
    rintro rfl
    simp [rsaBlockDec, pow3] at h
  rw [rsaBlockDec_eq hN0] at h
  injection h with h
  subst h
  exact Nat.mod_lt _ (by omega)

theorem rsa_block_roundtrip {P Q : Nat} (hP : Nat.Prime P) (hQ : Nat.Prime Q) (hne : P ≠ Q)
    {etot : Nat} (he : etot % ((P - 1) * (Q - 1)) = 1 % ((P - 1) * (Q - 1))) {v : Nat}
    (hv : v < P * Q) : v ^ etot % (P * Q) = v := by
  have hme := rsa_pow_eq hP hQ hne he v
  have hN : 0 < P * Q := Nat.mul_pos hP.pos hQ.pos
  exact ((Nat.mod_modEq _ _).trans hme).eq_of_lt_of_lt (Nat.mod_lt _ hN) hv

/-! ### Decode-side helpers and assorted map lemmas -/

theorem map_self_of {α : Type} (f : α → α) : ∀ l : List α, (∀ x ∈ l, f x = x) → l.map f = l
  | [], _ => rfl
  | a :: l, h => by
    rw [List.map_cons, h a (by simp), map_self_of f l (fun x hx => h x (by simp [hx]))]

theorem mapOpt_map {α β γ : Type} (f : α → β) (h : β → Option γ) :
    ∀ l : List α, mapOpt h (l.map f) = mapOpt (fun x => h (f x)) l
  | [] => rfl
  | a :: l => by
    simp only [List.map_cons, mapOpt, mapOpt_map f h l]

theorem mapOpt_append {α β : Type} (f : α → Option β) :
    ∀ (l1 l2 : List α) (ys1 ys2 : List β), mapOpt f l1 = some ys1 → mapOpt f l2 = some ys2 →
      mapOpt f (l1 ++ l2) = some (ys1 ++ ys2)
  | [], l2, ys1, ys2, h1, h2 => by
    simp only [mapOpt] at h1
    injection h1 with h1
    subst h1
    simpa using h2
  | a :: l1, l2, ys1, ys2, h1, h2 => by
    rcases hfa : f a with _ | b
    · simp [mapOpt, hfa] at h1
    · rcases hml : mapOpt f l1 with _ | bs
      · simp [mapOpt, hfa, hml] at h1
      · simp only [mapOpt, hfa, hml, Option.bind_eq_bind, Option.some_bind,
          Option.pure_def] at h1
        injection h1 with h1
        subst h1
        rw [List.cons_append]
        simp only [mapOpt, hfa, Option.bind_eq_bind, Option.some_bind, Option.pure_def,
          mapOpt_append f l1 l2 bs ys2 hml h2]
        rfl

theorem chunk2_pairs : ∀ vs : List (List Char), (∀ v ∈ vs, v.length = 2) →
    chunk2 vs.flatten = vs
  | [], _ => rfl
  | v :: vs, h => by
    obtain ⟨x, y, rfl⟩ := List.length_eq_two.1 (h v (by simp))
    rw [List.flatten_cons, List.cons_append, List.cons_append, List.nil_append, chunk2,
      chunk2_pairs vs (fun w hw => h w (by simp [hw]))]

theorem revLookup_mapOpt : ∀ (ch : List Char) (ws : List (List Char)),
    mapOpt (fun c => lookupA c ASCII) ch = some ws →
    mapOpt (fun code => revLookup code ASCII) ws = some ch
  | [], ws, h => by
    simp only [mapOpt] at h
    injection h with h
    subst h
    rfl
  | c :: ch, ws, h => by
    rcases hfa : lookupA c ASCII with _ | w
    · simp [mapOpt, hfa] at h
    · rcases hml : mapOpt (fun c => lookupA c ASCII) ch with _ | vs
      · simp [mapOpt, hfa, hml] at h
      · simp only [mapOpt, hfa, hml, Option.bind_eq_bind, Option.some_bind,
          Option.pure_def] at h
        injection h with h
        subst h
        simp only [mapOpt, revLookup_lookupA hfa, revLookup_mapOpt ch vs hml,
          Option.bind_eq_bind, Option.some_bind, Option.pure_def]

/-- Codes of a chunk re-slice into the chunk's per-character codes. -/
theorem chunk2_codeOf {ch b : List Char} (h : codeOf ch = some b) :
    ∃ ws, mapOpt (fun c => lookupA c ASCII) ch = some ws ∧ chunk2 b = ws ∧ b = ws.flatten := by
  rcases hm : mapOpt (fun c => lookupA c ASCII) ch with _ | ws
  · simp [codeOf, hm] at h
  · have hb : b = ws.flatten := by
      simp only [codeOf, hm, Option.map_some'] at h
      injection h with h
      exact h.symm
    refine ⟨ws, rfl, ?_, hb⟩
    rw [hb]
    apply chunk2_pairs
    intro w hw
    obtain ⟨c, hc, hcw⟩ := mapOpt_mem _ ch ws hm w hw
    exact (lookupA_ASCII_len hcw).1

/-- Decoding the per-chunk code blocks of a message recovers the message. -/
theorem cto_blocks : ∀ (chs : List (List Char)) (bs : List (List Char)),
    mapOpt codeOf chs = some bs →
    mapOpt (fun code => revLookup code ASCII) ((bs.map chunk2).flatten) = some chs.flatten
  | [], bs, h => by
    simp only [mapOpt] at h
    injection h with h
    subst h
    rfl
  | ch :: chs, bs, h => by
    rcases hfa : codeOf ch with _ | b
    · simp [mapOpt, hfa] at h
    · rcases hml : mapOpt codeOf chs with _ | bs'
      · simp [mapOpt, hfa, hml] at h
      · simp only [mapOpt, hfa, hml, Option.bind_eq_bind, Option.some_bind,
          Option.pure_def] at h
        injection h with h
        subst h
        obtain ⟨ws, hws, hchunk, hflat⟩ := chunk2_codeOf hfa
        rw [List.map_cons, List.flatten_cons, hchunk, List.flatten_cons]
        exact mapOpt_append _ ws _ ch chs.flatten (revLookup_mapOpt ch ws hws)
          (cto_blocks chs bs' hml)

/-- A block of a message whose length is a multiple of three is exactly six
digits, and re-printing its parsed value with padding returns it. -/
theorem block_six_of {m : List Char} (hlen : m.length % 3 = 0) {b : List Char}
    (hb : ∃ ch ∈ chunks3 (m.map Char.toUpper), codeOf ch = some b) :
    b.length = 6 ∧ (∀ x ∈ b, isDigitChar x) ∧ parseNat b < 10 ^ 6 ∧
      pad6 (natStr (parseNat b)) = b := by
  obtain ⟨ch, hch, hcode⟩ := hb
  have h3 : ch.length = 3 := chunks3_three _ (by simpa using hlen) ch hch
  obtain ⟨hlen6, hdig⟩ := codeOf_some ch b hcode
  rw [h3] at hlen6
  have hd : ∀ x ∈ b, isDigitChar x := fun x hx => (hdig x hx).1
  have hb6 : b.length = 6 := by omega
  have hplt : parseNat b < 10 ^ 6 := by
    have hq := parseNat_lt b hd
    rwa [hb6] at hq
  exact ⟨hb6, hd, hplt, pad6_natStr_parseNat b hd hb6⟩

theorem elgBlockDec_lt {c1 c2 k P v : Nat} (h : elgBlockDec c1 c2 k P = some v) : v < P := by
  unfold elgBlockDec at h
  rcases hw : powmodNeg c1 k P with _ | w
  · rw [hw] at h
    simp at h
  · have hP : P ≠ 0 := by
      rintro rfl
      simp [powmodNeg] at hw
    rw [hw] at h
    simp only [Option.map_some'] at h
    injection h with h
    subst h
    exact Nat.mod_lt _ (by omega)

theorem elgLoop_mem_lt (G Y P : Nat) (K : List Nat) :
    ∀ (bs : List (List Char)) (i : Nat) (cs : List (Nat × Nat)),
      elgLoop G Y P K i bs = some cs → ∀ p ∈ cs, p.1 < P ∧ p.2 < P
  | [], i, cs, h => by
    simp only [elgLoop] at h
    injection h with h
    subst h
    simp
  | b :: bs, i, cs, h => by
    rcases hget : K[i]? with _ | k
    · simp [elgLoop, hget] at h
    · by_cases hP : P = 0
      · simp [elgLoop, hget, pymod, hP] at h
      · rcases hrec : elgLoop G Y P K (i + 1) bs with _ | cs'
        · simp [elgLoop, hget, pymod, hP, hrec] at h
        · simp only [elgLoop, hget, pymod, if_neg hP, hrec, Option.bind_eq_bind,
            Option.some_bind, Option.pure_def] at h
          injection h with h
          subst h
          intro p hp
          rcases List.mem_cons.1 hp with rfl | hp
          · exact ⟨Nat.mod_lt _ (by omega), Nat.mod_lt _ (by omega)⟩
          · exact elgLoop_mem_lt G Y P K bs (i + 1) cs' hrec p hp

/-- Unconditional shape of `rsa_decrypt`: per-block double exponentiation,
at-least-6 zero-padding and single-space joining. -/
theorem rsa_decrypt_eq (c : List (List Char)) (r P Q E : Nat) (hN : P * Q ≠ 0) :
    rsa_decrypt c r (P, Q, E) = some (joinSpace (c.map
      (fun b => pad6 (natStr ((parseNat b ^ r % (P * Q)) ^ E % (P * Q)))))) := by
  unfold rsa_decrypt
  rw [mapOpt_some_of _ (fun b => pad6 (natStr ((parseNat b ^ r % (P * Q)) ^ E % (P * Q))))
    c (fun b hb => by rw [rsaBlockDec_eq hN]; rfl)]
  simp [joinTrail_eq_joinSpace]

theorem rsa_encrypt_none_eq (m : List Char) (P Q E : Nat) (pt : List Char)
    (hpt : convert_to_plaintext m = some pt) (hN : P * Q ≠ 0) :
    rsa_encrypt m (P, Q, E) none none = some ((pysplit pt).map
      (fun b => pad6 (natStr (parseNat b ^ E % (P * Q))))) := by
  unfold rsa_encrypt
  rw [hpt]
  simp only [Option.bind_eq_bind, Option.some_bind]
  exact mapOpt_some_of _ _ _ (fun b hb => by
    rw [show ((none : Option Nat).getD (P, Q, E).2.2) = E from rfl, rsaBlockEnc_none_eq hN]
    rfl)

theorem rsa_encrypt_signed_eq (m : List Char) (P Q E ds er w : Nat) (pt : List Char)
    (hpt : convert_to_plaintext m = some pt) (hN : P * Q ≠ 0) :
    rsa_encrypt m (P, Q, E) (some ds) (some (er, w)) = some ((pysplit pt).map
      (fun b => pad6 (natStr ((parseNat b ^ ds % (P * Q)) ^ er % (P * Q))))) := by
  unfold rsa_encrypt
  rw [hpt]
  simp only [Option.bind_eq_bind, Option.some_bind]
  exact mapOpt_some_of _ _ _ (fun b hb => by
    rw [show ((some ds : Option Nat).getD (P, Q, E).2.2) = ds from rfl,
      rsaBlockEnc_some_eq hN]
    rfl)

/-! ### Claim theorems -/

/-- C4: for every message composed only of alphabet symbols (equivalently,
whose characters all map into the table after uppercasing), of any length,
decoding the encoded block sequence returns the uppercased original:
`convert_to_original (convert_to_plaintext m) = m.upper`. -/
theorem claim_C4_codec_roundtrip (m : List Char)
    (hm : ∀ c ∈ m, (lookupA (Char.toUpper c) ASCII).isSome = true) :
    (convert_to_plaintext m).bind convert_to_original = some (m.map Char.toUpper) := by
  have hsome : (convert_to_plaintext m).isSome = true := (ctp_isSome_iff m).2 hm
  rcases hpt : convert_to_plaintext m with _ | pt
  · rw [hpt] at hsome
    simp at hsome
  · obtain ⟨bs, hmo, hjs, hsplit, -⟩ := ctp_blocks hpt
    rw [Option.some_bind]
    unfold convert_to_original
    rw [hsplit, cto_blocks _ bs hmo, chunks3_flatten]

/-- Witness for C4 at the concrete message "pUp". -/
theorem claim_C4_witness :
    (convert_to_plaintext ['p', 'U', 'p']).bind convert_to_original =
      some (['p', 'U', 'p'].map Char.toUpper) :=
  claim_C4_codec_roundtrip ['p', 'U', 'p'] (by decide)

/-- C9: encoding fails (returns nothing) exactly when some character is, after
uppercasing, outside the 27-symbol table; it succeeds when all characters are
alphabet symbols. -/
theorem claim_C9_unsupported_char (m : List Char) :
    ((∃ c ∈ m, lookupA (Char.toUpper c) ASCII = none) → convert_to_plaintext m = none) ∧
    ((∀ c ∈ m, (lookupA (Char.toUpper c) ASCII).isSome = true) →
      (convert_to_plaintext m).isSome = true) := by
  constructor
  · rintro ⟨c, hc, hnone⟩
    rcases h : convert_to_plaintext m with _ | pt
    · rfl
    · have hs := (ctp_isSome_iff m).1 (by rw [h]; rfl) c hc
      rw [hnone] at hs
      simp at hs
  · exact (ctp_isSome_iff m).2

/-- Witness for C9: "A!" fails, "pup" succeeds. -/
theorem claim_C9_witness :
    convert_to_plaintext ['A', '!'] = none ∧
      (convert_to_plaintext ['p', 'u', 'p']).isSome = true :=
  ⟨(claim_C9_unsupported_char ['A', '!']).1 ⟨'!', by decide, by decide⟩,
    (claim_C9_unsupported_char ['p', 'u', 'p']).2 (by decide)⟩

/-- C10: empty inputs pass through every public operation: encoding the empty
message yields the empty string, both encrypts of the empty message yield the
empty block list for any keys, and both decrypts of the empty ciphertext list
yield the empty string. -/
theorem claim_C10_empty_inputs :
    convert_to_plaintext [] = some [] ∧
    (∀ (P G Y : Nat) (K : List Nat), elGamal_encrypt [] (P, G, Y) K = some []) ∧
    (∀ (P Q E : Nat) (skpriv : Option Nat) (rk : Option (Nat × Nat)),
      rsa_encrypt [] (P, Q, E) skpriv rk = some []) ∧
    (∀ kpriv P : Nat, elGamal_decrypt [] kpriv P = some []) ∧
    (∀ r P Q E : Nat, rsa_decrypt [] r (P, Q, E) = some []) :=
  ⟨rfl, fun _ _ _ _ => rfl, fun _ _ _ _ _ => rfl, fun _ _ => rfl, fun _ _ _ _ => rfl⟩

/-- C5 (amended): for a prime modulus with every C1 invertible, ElGamal
decryption computes `modular_inverse(C1^kpriv mod P, P) * C2 mod P` per block,
prints it zero-padded on the left up to width 6 (longer values are kept
as printed), and joins the blocks with single spaces and no trailing
separator. -/
theorem claim_C5_decrypt_formula (c : List (Nat × Nat)) (kpriv P : Nat) (hP : Nat.Prime P)
    (hc : ∀ p ∈ c, Nat.gcd p.1 P = 1) :
    elGamal_decrypt c kpriv P = some (joinSpace (c.map
      (fun p => pad6 (natStr (invmod (p.1 ^ kpriv % P) P * p.2 % P))))) := by
  unfold elGamal_decrypt
  rw [mapOpt_some_of _ (fun p => pad6 (natStr (invmod (p.1 ^ kpriv % P) P * p.2 % P))) c
    (fun p hp => by
      unfold elgBlockDec
      rw [powmodNeg_eq _ _ _ hP.one_lt (hc p hp)]
      rfl)]
  simp [joinTrail_eq_joinSpace]

/-- Counterexample to C5 as stated: at the prime P = 1000003 with invertible
C1 = 1, the decrypted block prints as seven digits, not six. -/
theorem claim_C5_counterexample :
    Nat.Prime 1000003 ∧ Nat.gcd 1 1000003 = 1 ∧
      elGamal_decrypt [(1, 1000002)] 1 1000003 = some ['1','0','0','0','0','0','2'] ∧
      ¬(['1','0','0','0','0','0','2'] : List Char).length = 6 :=
  ⟨by norm_num, by decide, by decide, by decide⟩

/-- Witness for C5 at P = 7, kpriv = 5, ciphertext [(3, 2)]. -/
theorem claim_C5_witness :
    elGamal_decrypt [(3, 2)] 5 7 = some (joinSpace ([((3 : Nat), (2 : Nat))].map
      (fun p => pad6 (natStr (invmod (p.1 ^ 5 % 7) 7 * p.2 % 7))))) :=
  claim_C5_decrypt_formula [(3, 2)] 5 7 (by norm_num) (by decide)

/-- C1 (amended): the ElGamal round trip recovers the numeric-block string for
messages over the alphabet whose length is a multiple of three, provided in
addition that every plaintext block value is below the prime modulus P. -/
theorem claim_C1_elgamal_roundtrip (m : List Char) (P G Y kpriv : Nat) (K : List Nat)
    (pt : List Char) (hP : Nat.Prime P) (hG : isPrimitiveRoot G P)
    (hY : Y = G ^ kpriv % P)
    (hpt : convert_to_plaintext m = some pt)
    (hlen : m.length % 3 = 0)
    (hK : K.length = (pysplit pt).length)
    (_hcop : ∀ k ∈ K, Nat.gcd k (P - 1) = 1)
    (hblk : ∀ b ∈ pysplit pt, parseNat b < P) :
    (elGamal_encrypt m (P, G, Y) K).bind (fun c => elGamal_decrypt c kpriv P) = some pt := by
  obtain ⟨bs, hmo, hjs, hsplit, hmem⟩ := ctp_blocks hpt
  have hP0 : 0 < P := hP.pos
  have hg : Nat.gcd G P = 1 := by
    have hnd : ¬P ∣ G := by
      intro hd
      exact hG.1 ((Nat.mod_eq_zero_of_dvd hd))
    exact ((Nat.Prime.coprime_iff_not_dvd hP).2 hnd).symm
  have hKlen : K.length = bs.length := by rw [hK, hsplit]
  unfold elGamal_encrypt
  rw [hpt]
  simp only [Option.bind_eq_bind, Option.some_bind]
  rw [hsplit, elgLoop_eq G Y P K hP0 bs 0 (by omega), List.drop_zero, Option.some_bind]
  unfold elGamal_decrypt
  rw [mapOpt_map, mapOpt_some_of _ (fun z => pad6 (natStr (parseNat z.1)))
    (bs.zip K) (fun z hz => by
      obtain ⟨hz1, hz2⟩ := List.of_mem_zip hz
      have hv : parseNat z.1 < P := hblk z.1 (hsplit ▸ hz1)
      rw [hY, elg_block_dec_core hP hg kpriv z.2 (parseNat z.1) hv]
      rfl)]
  have hfst : (bs.zip K).map (fun z => pad6 (natStr (parseNat z.1))) = bs := by
    have h1 : (bs.zip K).map (fun z => pad6 (natStr (parseNat z.1)))
        = ((bs.zip K).map Prod.fst).map (fun b => pad6 (natStr (parseNat b))) := by
      rw [List.map_map]
      rfl
    rw [h1, List.map_fst_zip bs K (by omega)]
    exact map_self_of _ bs (fun b hb => (block_six_of hlen (hmem b hb)).2.2.2)
  rw [hfst]
  simp only [Option.bind_eq_bind, Option.some_bind, Option.pure_def]
  rw [joinTrail_eq_joinSpace, ← hjs]

/-- Counterexample to C1 as stated: with P = 3, primitive root G = 2,
kpriv = 1 (Y = 2), one coprime ephemeral secret per block, and the length-3
message "ABC", the round trip returns "000000", not the original block string
"000102" — the claim omits that block values must be below P. -/
theorem claim_C1_counterexample :
    Nat.Prime 3 ∧ isPrimitiveRoot 2 3 ∧ (2 : Nat) = 2 ^ 1 % 3 ∧
      (∀ k ∈ ([1] : List Nat), Nat.gcd k (3 - 1) = 1) ∧
      (['A', 'B', 'C'] : List Char).length % 3 = 0 ∧
      convert_to_plaintext ['A', 'B', 'C'] = some ['0', '0', '0', '1', '0', '2'] ∧
      ([1] : List Nat).length = (pysplit ['0', '0', '0', '1', '0', '2']).length ∧
      (elGamal_encrypt ['A', 'B', 'C'] (3, 2, 2) [1]).bind (fun c => elGamal_decrypt c 1 3)
        = some ['0', '0', '0', '0', '0', '0'] ∧
      some ['0', '0', '0', '0', '0', '0'] ≠
        (some ['0', '0', '0', '1', '0', '2'] : Option (List Char)) :=
  ⟨by norm_num, by decide, by decide, by decide, by decide, by decide, by decide,
    by decide, by decide⟩

/-- Witness for C1 (amended) at P = 103, G = 5, kpriv = 2, message "ABC". -/
theorem claim_C1_witness :
    (elGamal_encrypt ['A', 'B', 'C'] (103, 5, 25) [5]).bind
      (fun c => elGamal_decrypt c 2 103) = some ['0', '0', '0', '1', '0', '2'] :=
  claim_C1_elgamal_roundtrip ['A', 'B', 'C'] 103 5 25 2 [5]
    ['0', '0', '0', '1', '0', '2'] (by norm_num) (by decide) (by decide) (by decide)
    (by decide) (by decide) (by decide) (by decide)

/-- C2 (amended): decrypting the unsigned, unlayered RSA encryption with the
modular inverse of E² (not of E) modulo φ(N) recovers the numeric-block
string, for messages of length a multiple of three with block values below
N = P·Q (P ≠ Q prime). The decryptor re-applies E after the private exponent,
so the plain inverse of E does not invert this composition. -/
theorem claim_C2_rsa_roundtrip (m : List Char) (P Q E d : Nat) (pt : List Char)
    (hP : Nat.Prime P) (hQ : Nat.Prime Q) (hne : P ≠ Q)
    (hd : E * E * d % ((P - 1) * (Q - 1)) = 1 % ((P - 1) * (Q - 1)))
    (hpt : convert_to_plaintext m = some pt)
    (hlen : m.length % 3 = 0)
    (hblk : ∀ b ∈ pysplit pt, parseNat b < P * Q) :
    (rsa_encrypt m (P, Q, E) none none).bind (fun c => rsa_decrypt c d (P, Q, E))
      = some pt := by
  obtain ⟨bs, hmo, hjs, hsplit, hmem⟩ := ctp_blocks hpt
  have hN : P * Q ≠ 0 := Nat.mul_ne_zero hP.pos.ne' hQ.pos.ne'
  rw [rsa_encrypt_none_eq m P Q E pt hpt hN, Option.some_bind, rsa_decrypt_eq _ d P Q E hN]
  congr 1
  rw [hsplit, List.map_map]
  rw [map_self_of _ bs (fun b hb => by
    obtain ⟨h6, hdig, hlt6, hpad⟩ := block_six_of hlen (hmem b hb)
    show pad6 (natStr ((parseNat (pad6 (natStr (parseNat b ^ E % (P * Q)))) ^ d % (P * Q))
      ^ E % (P * Q))) = b
    rw [pad6_parse, parseNat_natStr, pow_mod_chain, pow_mod_chain]
    have he : (E * (d * E)) % ((P - 1) * (Q - 1)) = 1 % ((P - 1) * (Q - 1)) := by
      rw [show E * (d * E) = E * E * d by ring]
      exact hd
    rw [rsa_block_roundtrip hP hQ hne he (hblk b (hsplit ▸ hb))]
    exact hpad), ← hjs]

/-- Counterexample to C2 as stated: with P = 5, Q = 11, E = 3 and
d = 27 = E⁻¹ mod φ(N) = 40 (3·27 = 81 ≡ 1), the alleged round trip on "ABC"
yields "000038", not the original block string "000102": decryption applies E
once more after d, so it returns the blocks' E-th powers. -/
theorem claim_C2_counterexample :
    Nat.Prime 5 ∧ Nat.Prime 11 ∧ (3 * 27) % ((5 - 1) * (11 - 1)) = 1 % ((5 - 1) * (11 - 1)) ∧
      convert_to_plaintext ['A', 'B', 'C'] = some ['0', '0', '0', '1', '0', '2'] ∧
      (rsa_encrypt ['A', 'B', 'C'] (5, 11, 3) none none).bind
        (fun c => rsa_decrypt c 27 (5, 11, 3)) = some ['0', '0', '0', '0', '3', '8'] ∧
      some ['0', '0', '0', '0', '3', '8'] ≠
        (some ['0', '0', '0', '1', '0', '2'] : Option (List Char)) :=
  ⟨by norm_num, by norm_num, by decide, by decide, by decide, by decide⟩

/-- Witness for C2 (amended) at P = 5, Q = 103, E = 5, d = 49 = (E²)⁻¹ mod 408,
message "ABC". -/
theorem claim_C2_witness :
    (rsa_encrypt ['A', 'B', 'C'] (5, 103, 5) none none).bind
      (fun c => rsa_decrypt c 49 (5, 103, 5)) = some ['0', '0', '0', '1', '0', '2'] :=
  claim_C2_rsa_roundtrip ['A', 'B', 'C'] 5 103 5 49 ['0', '0', '0', '1', '0', '2']
    (by norm_num) (by norm_num) (by norm_num) (by decide) (by decide) (by decide) (by decide)

/-- C3 (amended): the signed-and-layered RSA round trip — encrypt with the
sender private exponent then the receiver public exponent, decrypt with the
receiver private exponent then E, in that fixed order — recovers the
numeric-block string, for messages of length a multiple of three with block
values below N = P·Q (P ≠ Q prime, both key pairs inverse mod φ(N)). -/
theorem claim_C3_rsa_signed_roundtrip (m : List Char) (P Q E ds er dr w : Nat)
    (pt : List Char) (hP : Nat.Prime P) (hQ : Nat.Prime Q) (hne : P ≠ Q)
    (hds : E * ds % ((P - 1) * (Q - 1)) = 1 % ((P - 1) * (Q - 1)))
    (her : er * dr % ((P - 1) * (Q - 1)) = 1 % ((P - 1) * (Q - 1)))
    (hpt : convert_to_plaintext m = some pt)
    (hlen : m.length % 3 = 0)
    (hblk : ∀ b ∈ pysplit pt, parseNat b < P * Q) :
    (rsa_encrypt m (P, Q, E) (some ds) (some (er, w))).bind
      (fun c => rsa_decrypt c dr (P, Q, E)) = some pt := by
  obtain ⟨bs, hmo, hjs, hsplit, hmem⟩ := ctp_blocks hpt
  have hN : P * Q ≠ 0 := Nat.mul_ne_zero hP.pos.ne' hQ.pos.ne'
  rw [rsa_encrypt_signed_eq m P Q E ds er w pt hpt hN, Option.some_bind,
    rsa_decrypt_eq _ dr P Q E hN]
  congr 1
  rw [hsplit, List.map_map]
  rw [map_self_of _ bs (fun b hb => by
    obtain ⟨h6, hdig, hlt6, hpad⟩ := block_six_of hlen (hmem b hb)
    show pad6 (natStr ((parseNat (pad6 (natStr ((parseNat b ^ ds % (P * Q)) ^ er % (P * Q))))
      ^ dr % (P * Q)) ^ E % (P * Q))) = b
    rw [pad6_parse, parseNat_natStr, pow_mod_chain, pow_mod_chain, pow_mod_chain]
    have he : (ds * (er * (dr * E))) % ((P - 1) * (Q - 1)) = 1 % ((P - 1) * (Q - 1)) := by
      have h12 : Nat.ModEq ((P - 1) * (Q - 1)) ((E * ds) * (er * dr)) (1 * 1) :=
        Nat.ModEq.mul hds her
      rw [one_mul] at h12
      rw [show ds * (er * (dr * E)) = (E * ds) * (er * dr) by ring]
      exact h12
    rw [rsa_block_roundtrip hP hQ hne he (hblk b (hsplit ▸ hb))]
    exact hpad), ← hjs]

/-- Counterexample to C3 as stated: with P = 3, Q = 5, E = 3, ds = 3,
er = 3, dr = 3 (all pairs inverse mod φ(15) = 8), the round trip on "ABC"
yields "000012", not "000102" — the claim omits that block values must be
below N. -/
theorem claim_C3_counterexample :
    Nat.Prime 3 ∧ Nat.Prime 5 ∧
      (3 * 3) % ((3 - 1) * (5 - 1)) = 1 % ((3 - 1) * (5 - 1)) ∧
      convert_to_plaintext ['A', 'B', 'C'] = some ['0', '0', '0', '1', '0', '2'] ∧
      (rsa_encrypt ['A', 'B', 'C'] (3, 5, 3) (some 3) (some (3, 0))).bind
        (fun c => rsa_decrypt c 3 (3, 5, 3)) = some ['0', '0', '0', '0', '1', '2'] ∧
      some ['0', '0', '0', '0', '1', '2'] ≠
        (some ['0', '0', '0', '1', '0', '2'] : Option (List Char)) :=
  ⟨by norm_num, by norm_num, by decide, by decide, by decide, by decide⟩

/-- Witness for C3 (amended) at P = 5, Q = 103, E = 5, ds = 245, er = 7,
dr = 175, message "ABC". -/
theorem claim_C3_witness :
    (rsa_encrypt ['A', 'B', 'C'] (5, 103, 5) (some 245) (some (7, 0))).bind
      (fun c => rsa_decrypt c 175 (5, 103, 5)) = some ['0', '0', '0', '1', '0', '2'] :=
  claim_C3_rsa_signed_roundtrip ['A', 'B', 'C'] 5 103 5 245 7 175 0
    ['0', '0', '0', '1', '0', '2'] (by norm_num) (by norm_num) (by norm_num) (by decide)
    (by decide) (by decide) (by decide) (by decide)

/-- C6 (amended): every ciphertext block string produced by `rsa_encrypt` is a
decimal string of at least 6 digits, left-zero-padded to width 6; it is
exactly 6 digits whenever its value is below 10^6 (in particular whenever
N = P·Q ≤ 10^6; larger values keep their longer print). -/
theorem claim_C6_block_width (s : List Char) (kpub : Nat × Nat × Nat) (skpriv : Option Nat)
    (rk : Option (Nat × Nat)) (out : List (List Char))
    (h : rsa_encrypt s kpub skpriv rk = some out) :
    ∀ b ∈ out, 6 ≤ b.length ∧ (∀ c ∈ b, isDigitChar c) ∧
      (parseNat b < 10 ^ 6 → b.length = 6) := by
  intro b hb
  unfold rsa_encrypt at h
  rcases hpt : convert_to_plaintext s with _ | pt
  · rw [hpt] at h
    simp at h
  · rw [hpt] at h
    simp only [Option.bind_eq_bind, Option.some_bind] at h
    obtain ⟨blk, hblk, hsome⟩ := mapOpt_mem _ _ _ h b hb
    rcases henc : rsaBlockEnc (parseNat blk) (skpriv.getD kpub.2.2) (kpub.1 * kpub.2.1) rk
      with _ | a
    · rw [henc] at hsome
      simp at hsome
    · rw [henc] at hsome
      simp only [Option.map_some'] at hsome
      injection hsome with hsome
      subst hsome
      refine ⟨pad6_length_ge _, pad6_digits _ (natStr_digits _), ?_⟩
      intro hlt
      rw [pad6_parse, parseNat_natStr] at hlt
      exact pad6_length_eq _ (natStr_length _ 6 hlt (by norm_num))

/-- Counterexample to C6 as stated: with N = 100000007·1 > 10^6 and E = 2, the
single block of "ZZZ" encrypts to the 8-digit string "68871166". -/
theorem claim_C6_counterexample :
    rsa_encrypt ['Z', 'Z', 'Z'] (100000007, 1, 2) none none
        = some [['6', '8', '8', '7', '1', '1', '6', '6']] ∧
      ¬(['6', '8', '8', '7', '1', '1', '6', '6'] : List Char).length = 6 :=
  ⟨by decide, by decide⟩

/-- Witness for C6 (amended) at the concrete call on "C" with keys (5, 11, 3). -/
theorem claim_C6_witness :
    6 ≤ (['0', '0', '0', '0', '0', '8'] : List Char).length ∧
      (∀ c ∈ (['0', '0', '0', '0', '0', '8'] : List Char), isDigitChar c) ∧
      (parseNat ['0', '0', '0', '0', '0', '8'] < 10 ^ 6 →
        (['0', '0', '0', '0', '0', '8'] : List Char).length = 6) :=
  claim_C6_block_width ['C'] (5, 11, 3) none none [['0', '0', '0', '0', '0', '8']]
    (by decide) ['0', '0', '0', '0', '0', '8'] (by decide)

/-- C7 (amended): every value a cipher stage produces is reduced modulo the
relevant modulus and so lies in [0, modulus): both components of every
ElGamal ciphertext pair are below P, every RSA ciphertext block value is
below N = P·Q, and both per-block decryption results are below their moduli.
(The original claim's further assertion that plaintext block values used as
exponentiation operands are below the modulus is refuted separately.) -/
theorem claim_C7_range_invariant :
    (∀ (s : List Char) (P G Y : Nat) (K : List Nat) (cs : List (Nat × Nat)),
      elGamal_encrypt s (P, G, Y) K = some cs → ∀ p ∈ cs, p.1 < P ∧ p.2 < P) ∧
    (∀ (s : List Char) (kpub : Nat × Nat × Nat) (sk : Option Nat) (rk : Option (Nat × Nat))
      (out : List (List Char)), rsa_encrypt s kpub sk rk = some out →
        ∀ b ∈ out, parseNat b < kpub.1 * kpub.2.1) ∧
    (∀ c1 c2 kpriv P v : Nat, elgBlockDec c1 c2 kpriv P = some v → v < P) ∧
    (∀ c r E N v : Nat, rsaBlockDec c r E N = some v → v < N) := by
  refine ⟨?_, ?_, fun c1 c2 kpriv P v h => elgBlockDec_lt h,
    fun c r E N v h => rsaBlockDec_lt h⟩
  · intro s P G Y K cs h p hp
    unfold elGamal_encrypt at h
    rcases hpt : convert_to_plaintext s with _ | pt
    · rw [hpt] at h
      simp at h
    · rw [hpt] at h
      simp only [Option.bind_eq_bind, Option.some_bind] at h
      exact elgLoop_mem_lt G Y P K (pysplit pt) 0 cs h p hp
  · intro s kpub sk rk out h b hb
    unfold rsa_encrypt at h
    rcases hpt : convert_to_plaintext s with _ | pt
    · rw [hpt] at h
      simp at h
    · rw [hpt] at h
      simp only [Option.bind_eq_bind, Option.some_bind] at h
      obtain ⟨blk, hblk, hsome⟩ := mapOpt_mem _ _ _ h b hb
      rcases henc : rsaBlockEnc (parseNat blk) (sk.getD kpub.2.2) (kpub.1 * kpub.2.1) rk
        with _ | a
      · rw [henc] at hsome
        simp at hsome
      · rw [henc] at hsome
        simp only [Option.map_some'] at hsome
        injection hsome with hsome
        subst hsome
        rw [pad6_parse, parseNat_natStr]
        exact rsaBlockEnc_lt henc

/-- Counterexample to C7's operand clause: in the successful call
`rsa_encrypt "ZZZ" (2, 3, 5) none none`, the plaintext block value 252525 used
as the base of the modular exponentiation is not below the modulus N = 6. -/
theorem claim_C7_counterexample :
    convert_to_plaintext ['Z', 'Z', 'Z'] = some ['2', '5', '2', '5', '2', '5'] ∧
      pysplit ['2', '5', '2', '5', '2', '5'] = [['2', '5', '2', '5', '2', '5']] ∧
      parseNat ['2', '5', '2', '5', '2', '5'] = 252525 ∧
      (rsa_encrypt ['Z', 'Z', 'Z'] (2, 3, 5) none none).isSome = true ∧
      ¬(252525 < 2 * 3) :=
  ⟨by decide, by decide, by decide, by decide, by decide⟩

/-- Witness for C7 (amended) at concrete calls of all four operations. -/
theorem claim_C7_witness :
    ((2, 0) : Nat × Nat).1 < 3 ∧ ((2, 0) : Nat × Nat).2 < 3 ∧
      parseNat ['0', '0', '0', '0', '0', '8'] < 5 * 11 ∧
      (6 : Nat) < 7 ∧ (2 : Nat) < 15 :=
  ⟨((claim_C7_range_invariant.1 ['A', 'B', 'C'] 3 2 2 [1] [(2, 0)] (by decide))
      (2, 0) (by decide)).1,
    ((claim_C7_range_invariant.1 ['A', 'B', 'C'] 3 2 2 [1] [(2, 0)] (by decide))
      (2, 0) (by decide)).2,
    (claim_C7_range_invariant.2.1 ['C'] (5, 11, 3) none none
      [['0', '0', '0', '0', '0', '8']] (by decide)) ['0', '0', '0', '0', '0', '8'] (by decide),
    claim_C7_range_invariant.2.2.1 3 2 5 7 6 (by decide),
    claim_C7_range_invariant.2.2.2 2 3 3 15 2 (by decide)⟩

/-- C8 (amended): ElGamal encryption fails, returning nothing (an uncaught
IndexError), exactly when fewer ephemeral secrets than plaintext blocks are
supplied; when at least as many secrets are supplied it succeeds, silently
ignoring the extras, so a longer secret list is not rejected. -/
theorem claim_C8_length_mismatch (m : List Char) (P G Y : Nat) (K : List Nat)
    (pt : List Char) (hpt : convert_to_plaintext m = some pt) (hP : 0 < P) :
    (K.length < (pysplit pt).length → elGamal_encrypt m (P, G, Y) K = none) ∧
    ((pysplit pt).length ≤ K.length → (elGamal_encrypt m (P, G, Y) K).isSome = true) := by
  constructor
  · intro hlt
    unfold elGamal_encrypt
    rw [hpt]
    simp only [Option.bind_eq_bind, Option.some_bind]
    apply elgLoop_none
    · intro hnil
      rw [hnil] at hlt
      simp at hlt
    · simpa using hlt
  · intro hle
    unfold elGamal_encrypt
    rw [hpt]
    simp only [Option.bind_eq_bind, Option.some_bind]
    rw [elgLoop_eq G Y P K hP _ 0 (by simpa using hle)]
    rfl

/-- Counterexample to C8 as stated: a secret list longer than the block count
(2 secrets, 1 block) does not make `elGamal_encrypt` fail — it succeeds and
ignores the extra secret. -/
theorem claim_C8_counterexample :
    (pysplit ((convert_to_plaintext ['A', 'B', 'C']).getD [])).length = 1 ∧
      ([0, 0] : List Nat).length ≠ 1 ∧
      elGamal_encrypt ['A', 'B', 'C'] (3, 2, 2) [0, 0] = some [(1, 0)] :=
  ⟨by decide, by decide, by decide⟩

/-- Witness for C8 (amended): too few secrets fail, enough secrets succeed. -/
theorem claim_C8_witness :
    elGamal_encrypt ['A', 'B', 'C'] (3, 2, 2) [] = none ∧
      (elGamal_encrypt ['A', 'B', 'C'] (3, 2, 2) [1, 2]).isSome = true :=
  ⟨(claim_C8_length_mismatch ['A', 'B', 'C'] 3 2 2 [] ['0', '0', '0', '1', '0', '2']
      (by decide) (by decide)).1 (by decide),
    (claim_C8_length_mismatch ['A', 'B', 'C'] 3 2 2 [1, 2] ['0', '0', '0', '1', '0', '2']
      (by decide) (by decide)).2 (by decide)⟩

end CryptoCalc
